import Mathlib

/-!
Verification development for the imagine-fs incremental result-stream
reconciliation engine and paged collection cache.

The definitions below are shallow embeddings of the JavaScript source:

* `applyVariant` embeds the `onVariant` merge step of `handleGenerate`
  (src/unnamed/part_000, lines 127-176), including its slot-resolution
  logic (`resolveSlot`).
* `parseLineR`, `feedChunk`, `preTrace`, `readLoop` embed the
  newline-framed event decoder and read loop of `streamGenerateDesigns`
  (src/frontend/src/context/UserState.jsx, lines 271-354).
* `uniqueById`, `fetchRecent` embed the paged collection cache
  (UserState.jsx, lines 4-12 and 112-150, 178-206).
* `handleDeleteImage`, `relatedKeyEffect` embed the gallery's delete
  handler and related-key-change effect
  (src/frontend/src/pages/gallery/Gallery.jsx, lines 99-126 and 291-326).

Modelling conventions:

* JS `undefined`/`null` field values are modelled as `none`; where the
  source tests truthiness of a string (`||`, `if (variant && image)`),
  the empty string is additionally treated as falsy via explicit tests
  (`truthyS`, `firstTruthyS`); where the source uses `??`, only `none`
  counts as absent.
* Combo descriptors are objects that the engine passes through without
  inspecting; they are modelled by an opaque `Combo := String` stand-in
  (objects are always truthy in JS, so `combo || x` becomes `Option.getD`).
* The byte stream is modelled at character granularity (`List Char`);
  UTF-8 re-assembly is `TextDecoder`'s job and is out of scope.
* `JSON.parse` is a platform builtin, not repository code; it is
  abstracted as a parameter `j : List Char → Option RawEvent` where
  `none` models a parse exception.
* JS arrays acquire holes when assigned past their length; a collection
  is therefore `List (Option Entry)` with `none` for a hole, and
  `setPad` models `next[i] = x`.
-/

/-- Opaque stand-in for a combo-descriptor object (design attribute
selections).  The engine only passes combos through; it never inspects
their fields. -/
abbrev Combo := String

/-- An image payload as carried by an `image_variant` event.  The merge
step only reads the `id`, `image_id` and `saved_path` fields (for
identifier backfill); the rest of the object is opaque (`payload`). -/
structure Image where
  id : Option String
  image_id : Option String
  saved_path : Option String
  payload : String
deriving DecidableEq, Repr

/-- The destructured data payload of an `image_variant` event:
`{ index, id, variant, image, rationale, combo }`. -/
structure VEvent where
  index : Option Int
  id : Option String
  variant : Option String
  image : Option Image
  rationale : Option String
  combo : Option Combo
deriving DecidableEq, Repr

/-- One entry of the per-run ImageSet collection, as built by the
`onVariant` merge step. -/
structure Entry where
  key : String
  combo : Combo
  variants : String → Option Image
  rationale : String
  theme : String
  type : String
  id : Option String

/-- The values `handleGenerate` closes over when seeding a fresh entry:
the caller's attribute selections, the payload theme and the payload
enhancement. -/
structure GenDefaults where
  selections : Combo
  theme : String
  type : String
deriving DecidableEq, Repr

/-- JS truthiness of a string-or-absent value: `undefined`, `null` and
`""` are falsy. -/
def truthyS : Option String → Bool
  | none => false
  | some s => !(s == "")

/-- `a || b || ... || null` over string candidates: the first truthy
candidate, else `none`.  Embeds the identifier backfill chain
`id || image?.id || image?.image_id || image?.saved_path || existing.id || null`. -/
def firstTruthyS : List (Option String) → Option String
  | [] => none
  | o :: rest => if truthyS o then o else firstTruthyS rest

/-- `next.findIndex((i) => i.key === variant)`, returning `-1` when no
entry matches.  A hole (`none`) never matches (the source would fault on
a hole here; no run reaching this branch holds holes). -/
def keyMatchIdx (col : List (Option Entry)) (v : Option String) : Int :=
  match v with
  | none => -1
  | some s =>
    match col.findIdx? (fun o => match o with
      | some en => en.key == s
      | none => false) with
    | some i => (i : Int)
    | none => -1

/-- Slot resolution of the `onVariant` merge step (part_000 lines
131-138): an integer `index` hint is normalised (1-based hints shift
down by one); otherwise the variant tag is matched against existing
keys; a negative outcome appends at the end of the collection. -/
def resolveSlot (col : List (Option Entry)) (e : VEvent) : Nat :=
  let normalised : Option Int :=
    match e.index with
    | some n => some (if 1 ≤ n then n - 1 else n)
    | none => none
  let target : Int :=
    match normalised with
    | some n => n
    | none => keyMatchIdx col e.variant
  if 0 ≤ target then target.toNat else col.length

/-- JS array assignment `next[i] = x`: in-bounds assignment replaces,
out-of-bounds assignment extends the array to length `i + 1`, creating
holes. -/
def setPad (col : List (Option Entry)) (i : Nat) (x : Option Entry) :
    List (Option Entry) :=
  if i < col.length then col.set i x
  else col ++ List.replicate (i - col.length) none ++ [x]

/-- The variant-map overlay of the merge step: `variants[variant] = image`
is performed only when both a truthy variant tag and an image payload are
present. -/
def updateV (f : String → Option Image) (e : VEvent) : String → Option Image :=
  match e.variant, e.image with
  | some v, some img =>
    if v = "" then f else fun t => if t = v then some img else f t
  | _, _ => f

/-- The `onVariant` merge step of `handleGenerate` (part_000 lines
127-170): resolve the slot, seed a fresh entry if the slot is vacant,
overlay the named variant, replace the rationale only when supplied,
backfill the identifier, and keep event combo over stored combo. -/
def applyVariant (d : GenDefaults) (prev : List (Option Entry)) (e : VEvent) :
    List (Option Entry) :=
  let resolved := resolveSlot prev e
  let key : String :=
    match e.variant with
    | some s => if s = "" then "image-" ++ toString (resolved + 1) else s
    | none => "image-" ++ toString (resolved + 1)
  let existing : Entry :=
    match prev.getD resolved none with
    | some en => en
    | none =>
      { key := key
        combo := e.combo.getD d.selections
        variants := fun _ => none
        rationale := ""
        theme := d.theme
        type := d.type
        id := if truthyS e.id then e.id else none }
  let imageId : Option String :=
    firstTruthyS [e.id, e.image.bind Image.id, e.image.bind Image.image_id,
      e.image.bind Image.saved_path, existing.id]
  setPad prev resolved (some
    { key := existing.key
      combo := e.combo.getD existing.combo
      variants := updateV existing.variants e
      rationale := e.rationale.getD existing.rationale
      theme := d.theme
      type := if existing.type = "" then d.type else existing.type
      id := imageId })

/-- The slot an event resolves to when (and only when) its own explicit
position hint decides the slot independently of the collection:
an integer `index` whose normalised value is non-negative. -/
def hintSlot (e : VEvent) : Option Nat :=
  match e.index with
  | some n =>
    let m : Int := if 1 ≤ n then n - 1 else n
    if 0 ≤ m then some m.toNat else none
  | none => none

/-- Specification-side description of the merged variant map: per tag
`t`, the image of the last (latest-arriving) event in the sequence that
carries a truthy variant tag equal to `t` together with an image
payload ("last write wins"), `none` when no event carries one.  The
right fold prefers the accumulated answer from later events. -/
def lastImageAt (evs : List VEvent) (t : String) : Option Image :=
  evs.foldr (fun e acc =>
    match acc with
    | some i => some i
    | none =>
      match e.variant, e.image with
      | some v, some img => if v ≠ "" ∧ v = t then some img else none
      | _, _ => none) none

/-- A baseline `image_variant` event payload with every field absent,
used to build concrete events compactly. -/
def blankEv : VEvent :=
  { index := none, id := none, variant := none, image := none,
    rationale := none, combo := none }

example : resolveSlot [] { blankEv with index := some 1, variant := some "original" } = 0 := by decide

example : resolveSlot [] { blankEv with index := some 0 } = 0 := by decide

example : resolveSlot [] { blankEv with index := some (-1) } = 0 := by decide

/-- The summary payload of a `done` event (`{id, theme, combo, type}`),
passed through to the follow-up related-results query; the decoder never
inspects it, so it is opaque here. -/
abbrev DoneData := String

/-- A decoded stream record `{ "event": <kind>, "data": <payload> }`.
`other` covers unrecognised kinds and records without an `event` field
(the switch's `default` branch).  The payload of a `prompt` event is
passed through without inspection and is elided. -/
inductive RawEvent
  | prompt
  | image_variant (d : VEvent)
  | errorEv (m : Option String)
  | doneEv (d : Option DoneData)
  | other
deriving DecidableEq, Repr

/-- One observer callback invocation, in decode order. -/
inductive CB
  | promptC
  | variantC (d : VEvent)
  | errorC (m : Option String)
  | doneC (d : Option DoneData)
deriving DecidableEq, Repr

/-- How the underlying stream read loop terminates: the reader reports
end of stream (`normal`), a read rejects with an `AbortError`
(cancellation, `abort`), or a read rejects with another error carrying
message `m` (`fail`). -/
inductive Ending
  | normal
  | abort
  | fail (m : String)
deriving DecidableEq, Repr

/-- Settlement of the `done` promise returned by `streamGenerateDesigns`. -/
inductive Outcome
  | resolved
  | rejected
deriving DecidableEq, Repr

/-- The mutable state of one run of the read loop: the carry-over text
buffer, the `doneSeen` flag, and the accumulated observer trace. -/
structure RunState where
  buffer : List Char
  doneSeen : Bool
  trace : List CB
deriving DecidableEq, Repr

/-- The initial run state: empty buffer, no `done` seen, no callbacks. -/
def st0 : RunState := { buffer := [], doneSeen := false, trace := [] }

/-- JS `line.trim()` emptiness test support: ASCII whitespace. -/
def isWs (c : Char) : Bool :=
  c == ' ' || c == '\t' || c == '\n' || c == '\r'

/-- `line.trim()` (over the whitespace subset `isWs`). -/
def trimWs (l : List Char) : List Char :=
  ((l.dropWhile isWs).reverse.dropWhile isWs).reverse

/-- `buffer.split("\n")`: split a character sequence at every newline.
Always returns at least one (possibly empty) part. -/
def splitNl : List Char → List (List Char)
  | [] => [[]]
  | c :: cs =>
    if c = '\n' then [] :: splitNl cs
    else
      match splitNl cs with
      | l :: ls => (c :: l) :: ls
      | [] => [[c]]

/-- `parseLine` of `streamGenerateDesigns` (UserState.jsx lines 294-318):
skip blank lines, report an unparsable line as a synthetic error with
the fixed message, dispatch parsed records to the observer, record
`doneSeen` on a `done` record, and ignore unrecognised kinds.
`j` abstracts `JSON.parse` (`none` = parse exception). -/
def parseLineR (j : List Char → Option RawEvent) (st : RunState)
    (line : List Char) : RunState :=
  if trimWs line = [] then st
  else
    match j line with
    | none => { st with trace := st.trace ++ [CB.errorC (some "Malformed stream data")] }
    | some RawEvent.prompt => { st with trace := st.trace ++ [CB.promptC] }
    | some (RawEvent.image_variant d) => { st with trace := st.trace ++ [CB.variantC d] }
    | some (RawEvent.errorEv m) => { st with trace := st.trace ++ [CB.errorC m] }
    | some (RawEvent.doneEv d) =>
      { st with doneSeen := true, trace := st.trace ++ [CB.doneC d] }
    | some RawEvent.other => st

/-- One iteration of the read loop body (UserState.jsx lines 323-330):
append the chunk to the buffer, split on newlines, keep the trailing
part as the new buffer, and parse every complete line. -/
def feedChunk (j : List Char → Option RawEvent) (st : RunState)
    (chunk : List Char) : RunState :=
  { (splitNl (st.buffer ++ chunk)).dropLast.foldl (parseLineR j) st with
    buffer := (splitNl (st.buffer ++ chunk)).getLastD [] }

/-- The run state reached just before the completion logic: all chunks
consumed, plus — on a normal end of stream only — the trailing partial
line parsed if its trimmed form is non-empty (UserState.jsx lines
332-334).  A rejected read (abort or failure) skips the flush. -/
def preTrace (j : List Char → Option RawEvent) (chunks : List (List Char))
    (ending : Ending) : RunState :=
  match ending with
  | Ending.normal =>
    if trimWs (chunks.foldl (feedChunk j) st0).buffer = []
    then chunks.foldl (feedChunk j) st0
    else parseLineR j (chunks.foldl (feedChunk j) st0)
      (chunks.foldl (feedChunk j) st0).buffer
  | _ => chunks.foldl (feedChunk j) st0

/-- The whole read-loop task (UserState.jsx lines 320-348): consume the
chunks, then settle.  A normal end or an `AbortError` synthesizes a
completion callback when no `done` record was seen and resolves the
promise; any other error reports `onError` and rejects. -/
def readLoop (j : List Char → Option RawEvent) (chunks : List (List Char))
    (ending : Ending) : RunState × Outcome :=
  match ending with
  | Ending.fail m =>
    ({ preTrace j chunks ending with
        trace := (preTrace j chunks ending).trace
          ++ [CB.errorC (some (if m = "" then "Streaming failed" else m))] },
      Outcome.rejected)
  | _ =>
    (if (preTrace j chunks ending).doneSeen then preTrace j chunks ending
     else { preTrace j chunks ending with
        trace := (preTrace j chunks ending).trace ++ [CB.doneC none] },
      Outcome.resolved)

/-- Number of completion callbacks (`onDone` invocations) in a trace. -/
def countDone (tr : List CB) : Nat :=
  tr.countP (fun cb => match cb with | CB.doneC _ => true | _ => false)

/-- Number of error callbacks (`onError` invocations) in a trace. -/
def countErr (tr : List CB) : Nat :=
  tr.countP (fun cb => match cb with | CB.errorC _ => true | _ => false)

/-- The ImageSet collection produced by wiring the decoded trace into
the `onVariant` merge step, as `handleGenerate` does. -/
def imageSetsOf (d : GenDefaults) (tr : List CB) : List (Option Entry) :=
  tr.foldl (fun col cb =>
    match cb with
    | CB.variantC e => applyVariant d col e
    | _ => col) []

/-- An item of a paged collection: an ImageSet-like record with a stable
identifier.  `payload` stands for the rest of the record, which the
cache passes through without inspection. -/
structure Item where
  id : Option String
  payload : String
deriving DecidableEq, Repr

/-- The dedup key of `uniqueById`: `item?.id ?? JSON.stringify(item)`.
`enc` abstracts `JSON.stringify` over the opaque record. -/
def itemKey (enc : Item → String) (it : Item) : String :=
  match it.id with
  | some s => s
  | none => enc it

/-- The filtering loop inside `uniqueById` (UserState.jsx lines 5-11),
with the `seen` set threaded explicitly: keep an item iff its key has
not been seen, then add the key. -/
def ubGo (enc : Item → String) (seen : List String) : List Item → List Item
  | [] => []
  | it :: rest =>
    let k := itemKey enc it
    if k ∈ seen then ubGo enc seen rest
    else it :: ubGo enc (k :: seen) rest

/-- `uniqueById` (UserState.jsx lines 4-12): drop every item whose dedup
key has already appeared, preserving order of first appearance. -/
def uniqueById (enc : Item → String) (l : List Item) : List Item :=
  ubGo enc [] l

/-- The response `fetchRecentImages` sees after `safeJson`: the fetch
threw (`fetchFail`), a `{status:false}` sentinel, an object with
optional `items` array and optional numeric `total`, or a bare array. -/
inductive RecentData
  | fetchFail
  | statusFalse
  | obj (items : Option (List Item)) (total : Option Nat)
  | arr (l : List Item)
deriving DecidableEq, Repr

/-- The `recentImages`/`recentTotal` slice of the application state. -/
structure RecentSt where
  recent : List Item
  total : Nat
deriving DecidableEq, Repr

/-- The `{items, total, has_more}` value a page fetch returns. -/
structure PageResult where
  items : List Item
  total : Nat
  has_more : Bool
deriving DecidableEq, Repr

/-- `fetchRecentImages` (UserState.jsx lines 112-150): a thrown fetch is
caught and reported as an empty page with the local state untouched; a
`status:false` sentinel clears the local state; otherwise the items are
merged (replace at offset 0, dedup-append beyond), the reported total is
stored, and `has_more` is derived as
`offset + limit < total && items.length > 0`. -/
def fetchRecent (enc : Item → String) (st : RecentSt) (offset limit : Nat)
    (data : RecentData) : RecentSt × PageResult :=
  match data with
  | RecentData.fetchFail => (st, { items := [], total := 0, has_more := false })
  | RecentData.statusFalse =>
    ({ recent := [], total := 0 }, { items := [], total := 0, has_more := false })
  | RecentData.obj oitems ototal =>
    let items := oitems.getD []
    let total := ototal.getD 0
    let recent' :=
      if offset = 0 then uniqueById enc items
      else uniqueById enc (st.recent ++ items)
    ({ recent := recent', total := total },
      { items := items, total := total,
        has_more := decide (offset + limit < total) && decide (0 < items.length) })
  | RecentData.arr l =>
    let items : List Item := []
    let total := l.length
    let recent' :=
      if offset = 0 then uniqueById enc items
      else uniqueById enc (st.recent ++ items)
    ({ recent := recent', total := total },
      { items := items, total := total,
        has_more := decide (offset + limit < total) && decide (0 < items.length) })

/-- The slices of gallery state touched by `handleDeleteImage`. -/
structure GalSt where
  recent : List Item
  recentTotal : Nat
  related : List Item
  relatedTotal : Nat
deriving DecidableEq, Repr

/-- `prev.filter((img) => img.id !== imageId)`. -/
def removeIdFrom (l : List Item) (iid : String) : List Item :=
  l.filter (fun i => !(i.id == some iid))

/-- The local-cache mutations of `handleDeleteImage` (Gallery.jsx lines
104-119), performed after the server delete succeeded: membership is
checked before mutating, the identifier is filtered out of both lists,
and each total that held the item is decremented with a floor of zero
(`Math.max(0, prev - 1)`, which is exactly truncated `Nat` subtraction). -/
def handleDeleteImage (st : GalSt) (iid : String) : GalSt :=
  let wasInRecent := st.recent.any (fun i => i.id == some iid)
  let wasInRelated := st.related.any (fun i => i.id == some iid)
  { recent := removeIdFrom st.recent iid
    related := removeIdFrom st.related iid
    recentTotal := if wasInRecent then st.recentTotal - 1 else st.recentTotal
    relatedTotal := if wasInRelated then st.relatedTotal - 1 else st.relatedTotal }

/-- The whole `handleDeleteImage` handler (Gallery.jsx lines 99-126):
`await removeImage(imageId)` runs first; every local mutation is
sequenced after it, so a rejected server call reaches the catch block
with the local state untouched. -/
def handleDeleteAttempt (st : GalSt) (iid : String)
    (server : Except String Unit) : GalSt :=
  match server with
  | Except.error _ => st
  | Except.ok _ => handleDeleteImage st iid

/-- The inputs the related-key-change effect (Gallery.jsx lines 291-326)
reads: the active tab, the focused ImageSet (via `imageSets` and
`selectedComboIndex`), the related collection state, and the last key
the effect acted on. -/
structure RelEffIn where
  activeTab : String
  imageSets : List (Option Entry)
  selectedComboIndex : Nat
  relatedImages : List Item
  relatedTotal : Nat
  relatedPage : Nat
  hasMoreRelated : Bool
  lastRelatedKey : Option (String × Combo)

/-- The driving key of the related collection:
`JSON.stringify({theme, combo})` of the focused ImageSet, `none` when no
ImageSet is focused.  Stringify equality is modelled as pair equality. -/
def comboKeyOf (inp : RelEffIn) : Option (String × Combo) :=
  (inp.imageSets.getD inp.selectedComboIndex none).map
    (fun en => (en.theme, en.combo))

/-- The outputs of the related-key-change effect.  `refetch = some p`
records that `loadRelated(p)` was invoked (a page-0 refetch request);
`none` records that no refetch was issued. -/
structure RelEffOut where
  lastRelatedKey : Option (String × Combo)
  relatedImages : List Item
  relatedTotal : Nat
  relatedPage : Nat
  hasMoreRelated : Bool
  refetch : Option Nat

/-- The related-key-change effect (Gallery.jsx lines 291-326): outside
the related tab, without a focused key, or with an unchanged key it does
nothing; on a key change it keeps a non-empty sequence as a prefetch
(aligning page and has-more to the existing content, no refetch),
otherwise it clears sequence/total/cursor and requests page 0. -/
def relatedKeyEffect (inp : RelEffIn) : RelEffOut :=
  let keep : RelEffOut :=
    { lastRelatedKey := inp.lastRelatedKey, relatedImages := inp.relatedImages,
      relatedTotal := inp.relatedTotal, relatedPage := inp.relatedPage,
      hasMoreRelated := inp.hasMoreRelated, refetch := none }
  if inp.activeTab ≠ "related-images" then keep
  else
    match comboKeyOf inp with
    | none => keep
    | some k =>
      if some k = inp.lastRelatedKey then keep
      else if 0 < inp.relatedImages.length then
        { lastRelatedKey := some k, relatedImages := inp.relatedImages,
          relatedTotal := inp.relatedTotal, relatedPage := 0,
          hasMoreRelated := decide (inp.relatedImages.length <
            (if inp.relatedTotal = 0 then inp.relatedImages.length else inp.relatedTotal)),
          refetch := none }
      else
        { lastRelatedKey := some k, relatedImages := [], relatedTotal := 0,
          relatedPage := 0, hasMoreRelated := true, refetch := some 0 }

/-- Concrete stringify stand-in used by scenario statements. -/
def encW : Item → String := fun it => it.payload

/-- Scenario item with identifier `a`. -/
def itA : Item := { id := some "a", payload := "pa" }

/-- Scenario item with identifier `b`. -/
def itB : Item := { id := some "b", payload := "pb" }

/-- Scenario item with identifier `c`. -/
def itC : Item := { id := some "c", payload := "pc" }

/-- Scenario item with identifier `d`. -/
def itD : Item := { id := some "d", payload := "pd" }

/-- Scenario item with identifier `e`. -/
def itE : Item := { id := some "e", payload := "pe" }

/-- C6: when the collaborator supplies `items` and a numeric `total`
(and, as always for this endpoint, no `has_more` of its own), the
returned `has_more` is `(offset + limit < total) && (items.length > 0)`;
and in the two-page scenario (offset 0 then offset 3, limit 3, total 9,
pages `[a,b,c]` and `[c,d,e]`) the merged sequence is `[a,b,c,d,e]` and
`has_more` is `true` because `6 < 9`. -/
theorem has_more_derivation :
    (∀ (enc : Item → String) (st : RecentSt) (offset limit : Nat)
      (items : List Item) (total : Nat),
      (fetchRecent enc st offset limit
          (RecentData.obj (some items) (some total))).2.has_more
        = (decide (offset + limit < total) && decide (0 < items.length))) ∧
    ((fetchRecent encW
        ((fetchRecent encW { recent := [], total := 0 } 0 3
            (RecentData.obj (some [itA, itB, itC]) (some 9))).1) 3 3
        (RecentData.obj (some [itC, itD, itE]) (some 9))).1.recent
        = [itA, itB, itC, itD, itE] ∧
      (fetchRecent encW
        ((fetchRecent encW { recent := [], total := 0 } 0 3
            (RecentData.obj (some [itA, itB, itC]) (some 9))).1) 3 3
        (RecentData.obj (some [itC, itD, itE]) (some 9))).2.has_more = true) :=
  ⟨fun _ _ _ _ _ _ => rfl, by decide⟩

/-- C7: deleting an identifier removes it from both the recent and the
related sequence, decrements exactly the totals of the collections that
held it by one (with a floor of zero, via truncated subtraction), and
leaves the sequence and total of a collection that did not hold it
unchanged. -/
theorem delete_removes_everywhere (st : GalSt) (iid : String) :
    (∀ i ∈ (handleDeleteImage st iid).recent, i.id ≠ some iid) ∧
    (∀ i ∈ (handleDeleteImage st iid).related, i.id ≠ some iid) ∧
    ((∃ i ∈ st.recent, i.id = some iid) →
      (handleDeleteImage st iid).recentTotal = st.recentTotal - 1) ∧
    ((∃ i ∈ st.related, i.id = some iid) →
      (handleDeleteImage st iid).relatedTotal = st.relatedTotal - 1) ∧
    ((¬ ∃ i ∈ st.recent, i.id = some iid) →
      (handleDeleteImage st iid).recent = st.recent ∧
      (handleDeleteImage st iid).recentTotal = st.recentTotal) ∧
    ((¬ ∃ i ∈ st.related, i.id = some iid) →
      (handleDeleteImage st iid).related = st.related ∧
      (handleDeleteImage st iid).relatedTotal = st.relatedTotal) := by
  refine ⟨?_, ?_, ?_, ?_, ?_, ?_⟩
  · intro i hi
    have := List.mem_filter.mp hi
    simpa using this.2
  · intro i hi
    have := List.mem_filter.mp hi
    simpa using this.2
  · rintro ⟨i, hi, hid⟩
    have hany : st.recent.any (fun i => i.id == some iid) = true :=
      List.any_eq_true.mpr ⟨i, hi, by simp [hid]⟩
    simp [handleDeleteImage, hany]
  · rintro ⟨i, hi, hid⟩
    have hany : st.related.any (fun i => i.id == some iid) = true :=
      List.any_eq_true.mpr ⟨i, hi, by simp [hid]⟩
    simp [handleDeleteImage, hany]
  · intro hno
    have hall : ∀ i ∈ st.recent, ¬ (i.id = some iid) := by
      intro i hi hid
      exact hno ⟨i, hi, hid⟩
    have hany : st.recent.any (fun i => i.id == some iid) = false := by
      simp only [List.any_eq_false]
      intro i hi
      simpa using hall i hi
    constructor
    · show st.recent.filter _ = st.recent
      apply List.filter_eq_self.mpr
      intro i hi
      simpa using hall i hi
    · simp [handleDeleteImage, hany]
  · intro hno
    have hall : ∀ i ∈ st.related, ¬ (i.id = some iid) := by
      intro i hi hid
      exact hno ⟨i, hi, hid⟩
    have hany : st.related.any (fun i => i.id == some iid) = false := by
      simp only [List.any_eq_false]
      intro i hi
      simpa using hall i hi
    constructor
    · show st.related.filter _ = st.related
      apply List.filter_eq_self.mpr
      intro i hi
      simpa using hall i hi
    · simp [handleDeleteImage, hany]

/-- Gallery state for the C7 delete scenario: identifier `c` present in
both the recent and the related collection. -/
def stDel : GalSt :=
  { recent := [itA, itB, itC], recentTotal := 9,
    related := [itC, itD], relatedTotal := 4 }

/-- C7 witness: deleting identifier `c` from `stDel` (which holds it in
both collections) removes it from both sequences and decrements both
totals by exactly one. -/
theorem delete_removes_everywhere_witness :
    (∀ i ∈ (handleDeleteImage stDel "c").recent, i.id ≠ some "c") ∧
    (handleDeleteImage stDel "c").recentTotal = stDel.recentTotal - 1 ∧
    (handleDeleteImage stDel "c").relatedTotal = stDel.relatedTotal - 1 :=
  ⟨(delete_removes_everywhere stDel "c").1,
    (delete_removes_everywhere stDel "c").2.2.1 ⟨itC, by decide, by decide⟩,
    (delete_removes_everywhere stDel "c").2.2.2.1 ⟨itC, by decide, by decide⟩⟩

/-- C10: the delete path is atomic with respect to client state on
error — a rejected server call leaves the gallery state untouched, and
only a successful call performs the local-cache mutations. -/
theorem delete_atomic_on_error (st : GalSt) (iid : String) (e : String) :
    handleDeleteAttempt st iid (Except.error e) = st ∧
    handleDeleteAttempt st iid (Except.ok ()) = handleDeleteImage st iid :=
  ⟨rfl, rfl⟩

/-- C9 counterexample: the claim predicts that an event whose position
hint is the integer `-1` (which is `< 1`, hence "otherwise") resolves to
slot `-1`; on the empty collection the code resolves it to the append
slot `0` instead. -/
theorem resolveSlot_negative_hint_cex :
    ¬ ((resolveSlot [] { blankEv with index := some (-1) } : Int)
        = if (1 : Int) ≤ -1 then -1 - 1 else -1) := by decide

/-- C9 (amended): for a non-negative integer position hint `n`, the
merge step resolves the target slot to `n - 1` when `n ≥ 1` and to `n`
itself when `n = 0` (so hints `0` and `1` both resolve to slot `0`);
a negative hint instead falls through to the append path. -/
theorem resolveSlot_nonneg_hint (col : List (Option Entry)) (e : VEvent)
    (n : Int) (hidx : e.index = some n) (hn : 0 ≤ n) :
    (resolveSlot col e : Int) = if 1 ≤ n then n - 1 else n := by
  unfold resolveSlot
  rw [hidx]
  by_cases h1 : (1 : Int) ≤ n
  · have h0 : (0 : Int) ≤ n - 1 := by omega
    simp [h1, h0, Int.toNat_of_nonneg h0]
    omega
  · simp [h1, hn, Int.toNat_of_nonneg hn]

/-- C9 witness: hints `0` and `1` both resolve to slot `0` on the empty
collection, as instances of the amended formula. -/
theorem resolveSlot_nonneg_hint_witness :
    (resolveSlot [] { blankEv with index := some 0 } : Int)
        = (if (1 : Int) ≤ 0 then 0 - 1 else 0) ∧
    (resolveSlot [] { blankEv with index := some 1 } : Int)
        = (if (1 : Int) ≤ 1 then 1 - 1 else 1) :=
  ⟨resolveSlot_nonneg_hint [] _ 0 rfl (by decide),
    resolveSlot_nonneg_hint [] _ 1 rfl (by decide)⟩

/-- C8: when the related tab is active, a focused key exists and it
differs from the last acted-on key, the effect clears sequence, total
and cursor and requests page 0 when the sequence is empty; when the
sequence is non-empty (a prefetch) it loses no entries, issues no
refetch, and realigns the cursor (page 0) and the has-more flag to the
existing content. -/
theorem related_key_change (inp : RelEffIn) (k : String × Combo)
    (htab : inp.activeTab = "related-images")
    (hk : comboKeyOf inp = some k)
    (hch : inp.lastRelatedKey ≠ some k) :
    (inp.relatedImages = [] →
      relatedKeyEffect inp =
        { lastRelatedKey := some k, relatedImages := [], relatedTotal := 0,
          relatedPage := 0, hasMoreRelated := true, refetch := some 0 }) ∧
    (inp.relatedImages ≠ [] →
      (relatedKeyEffect inp).relatedImages = inp.relatedImages ∧
      (relatedKeyEffect inp).relatedTotal = inp.relatedTotal ∧
      (relatedKeyEffect inp).refetch = none ∧
      (relatedKeyEffect inp).relatedPage = 0 ∧
      (relatedKeyEffect inp).lastRelatedKey = some k ∧
      (relatedKeyEffect inp).hasMoreRelated
        = decide (inp.relatedImages.length <
            (if inp.relatedTotal = 0 then inp.relatedImages.length
             else inp.relatedTotal))) := by
  have hne : ¬ inp.activeTab ≠ "related-images" := by simp [htab]
  have hch' : ¬ some k = inp.lastRelatedKey := fun h => hch h.symm
  constructor
  · intro hempty
    have hlen : ¬ 0 < inp.relatedImages.length := by simp [hempty]
    simp [relatedKeyEffect, hne, hk, hch', hlen]
  · intro hnonempty
    have hlen : 0 < inp.relatedImages.length :=
      List.length_pos.mpr hnonempty
    simp [relatedKeyEffect, hne, hk, hch', hlen]

/-- An entry as the related-key effect sees it: only `theme` and `combo`
matter for the driving key. -/
def enFocus : Entry :=
  { key := "original", combo := "comboA", variants := fun _ => none,
    rationale := "", theme := "themeA", type := "cup", id := some "x1" }

/-- C8 witness: with the related tab active, focus on `enFocus` (key
`(themeA, comboA)`), a stale last key, and a non-empty prefetched
sequence of two items with a stored total of 5, the effect keeps both
entries, issues no refetch, resets the page to 0 and recomputes
has-more as `2 < 5`. -/
theorem related_key_change_witness :
    (relatedKeyEffect
      { activeTab := "related-images", imageSets := [some enFocus],
        selectedComboIndex := 0, relatedImages := [itA, itB],
        relatedTotal := 5, relatedPage := 3, hasMoreRelated := false,
        lastRelatedKey := none }).relatedImages = [itA, itB] ∧
    (relatedKeyEffect
      { activeTab := "related-images", imageSets := [some enFocus],
        selectedComboIndex := 0, relatedImages := [itA, itB],
        relatedTotal := 5, relatedPage := 3, hasMoreRelated := false,
        lastRelatedKey := none }).refetch = none := by
  have h := (related_key_change
    { activeTab := "related-images", imageSets := [some enFocus],
      selectedComboIndex := 0, relatedImages := [itA, itB],
      relatedTotal := 5, relatedPage := 3, hasMoreRelated := false,
      lastRelatedKey := none } ("themeA", "comboA") rfl rfl
    (by simp)).2 (by simp)
  exact ⟨h.1, h.2.2.1⟩

/-- `ubGo` only consults the seen set through membership, so any two
seen lists with the same members give the same result. -/
theorem ubGo_congr (enc : Item → String) (l : List Item) :
    ∀ s₁ s₂, (∀ x, x ∈ s₁ ↔ x ∈ s₂) → ubGo enc s₁ l = ubGo enc s₂ l := by
  induction l with
  | nil => intros; rfl
  | cons it rest ih =>
    intro s₁ s₂ h
    simp only [ubGo]
    by_cases hk : itemKey enc it ∈ s₁
    · rw [if_pos hk, if_pos ((h _).mp hk)]
      exact ih _ _ h
    · rw [if_neg hk, if_neg (fun hx => hk ((h _).mpr hx))]
      congr 1
      apply ih
      intro x
      simp only [List.mem_cons]
      exact or_congr Iff.rfl (h x)

/-- Splitting a `ubGo` pass over an append: the second half runs with
the kept keys of the first half added to the seen set. -/
theorem ubGo_append (enc : Item → String) (a b : List Item) :
    ∀ seen, ubGo enc seen (a ++ b)
      = ubGo enc seen a
        ++ ubGo enc ((ubGo enc seen a).map (itemKey enc) ++ seen) b := by
  induction a with
  | nil => intro seen; simp [ubGo]
  | cons it a' ih =>
    intro seen
    simp only [List.cons_append, ubGo, List.append_eq]
    by_cases hk : itemKey enc it ∈ seen
    · rw [if_pos hk, if_pos hk]
      exact ih seen
    · rw [if_neg hk, if_neg hk, ih (itemKey enc it :: seen)]
      simp only [List.map_cons, List.cons_append, List.cons.injEq, true_and]
      congr 1
      apply ubGo_congr
      intro x
      simp only [List.mem_append, List.mem_cons]
      tauto

/-- A list whose keys are pairwise distinct and disjoint from the seen
set passes through `ubGo` unchanged. -/
theorem ubGo_eq_self (enc : Item → String) (l : List Item) :
    ∀ seen, (l.map (itemKey enc)).Nodup →
      (∀ k ∈ l.map (itemKey enc), k ∉ seen) → ubGo enc seen l = l := by
  induction l with
  | nil => intros; rfl
  | cons it rest ih =>
    intro seen hnd hdisj
    simp only [List.map_cons, List.nodup_cons] at hnd
    have hk : itemKey enc it ∉ seen := hdisj _ (by simp)
    simp only [ubGo, if_neg hk]
    congr 1
    apply ih _ hnd.2
    intro k hkm
    simp only [List.mem_cons]
    rintro (h | h)
    · exact hnd.1 (h ▸ hkm)
    · exact hdisj k (by simp [hkm]) h

/-- The keys of a `ubGo` result are pairwise distinct and avoid the
seen set. -/
theorem ubGo_nodup_and_fresh (enc : Item → String) (l : List Item) :
    ∀ seen, ((ubGo enc seen l).map (itemKey enc)).Nodup ∧
      ∀ k ∈ (ubGo enc seen l).map (itemKey enc), k ∉ seen := by
  induction l with
  | nil => intro seen; simp [ubGo]
  | cons it rest ih =>
    intro seen
    by_cases hk : itemKey enc it ∈ seen
    · simpa [ubGo, hk] using ih seen
    · simp only [ubGo, if_neg hk, List.map_cons, List.nodup_cons]
      obtain ⟨hnd, hfresh⟩ := ih (itemKey enc it :: seen)
      refine ⟨⟨?_, hnd⟩, ?_⟩
      · intro hmem
        exact hfresh _ hmem (by simp)
      · intro k hkm
        simp only [List.mem_cons] at hkm
        rcases hkm with h | h
        · exact h ▸ hk
        · intro hks
          exact hfresh k h (by simp [hks])

/-- Every input key survives into the kept keys or was already seen. -/
theorem ubGo_covers (enc : Item → String) (l : List Item) :
    ∀ seen it, it ∈ l →
      itemKey enc it ∈ (ubGo enc seen l).map (itemKey enc) ∨
      itemKey enc it ∈ seen := by
  induction l with
  | nil => simp
  | cons x rest ih =>
    intro seen it hit
    rcases List.mem_cons.mp hit with h | h
    · subst h
      by_cases hk : itemKey enc it ∈ seen
      · right; exact hk
      · left; simp [ubGo, hk]
    · by_cases hk : itemKey enc x ∈ seen
      · simpa [ubGo, hk] using ih seen it h
      · simp only [ubGo, if_neg hk, List.map_cons]
        rcases ih (itemKey enc x :: seen) it h with hm | hm
        · left; simp [hm]
        · rcases List.mem_cons.mp hm with he | he
          · left; simp [he]
          · right; exact he

/-- A list all of whose keys are already seen is dropped entirely. -/
theorem ubGo_drops_all (enc : Item → String) (l : List Item) :
    ∀ seen, (∀ it ∈ l, itemKey enc it ∈ seen) → ubGo enc seen l = [] := by
  induction l with
  | nil => intros; rfl
  | cons it rest ih =>
    intro seen h
    simp only [ubGo, if_pos (h it (by simp))]
    exact ih seen (fun x hx => h x (by simp [hx]))

/-- C5: merging a fetched page into a deduplicated local sequence keeps
the local items and appends exactly the page items whose key is new
(first occurrence, page order); a `uniqueById` result never contains
two items with the same key; and re-merging the same page is the
identity (idempotence). -/
theorem loadPage_merge_dedup (enc : Item → String) :
    (∀ prev items, (prev.map (itemKey enc)).Nodup →
      uniqueById enc (prev ++ items)
        = prev ++ ubGo enc (prev.map (itemKey enc)) items) ∧
    (∀ l, ((uniqueById enc l).map (itemKey enc)).Nodup) ∧
    (∀ prev items,
      uniqueById enc (uniqueById enc (prev ++ items) ++ items)
        = uniqueById enc (prev ++ items)) := by
  refine ⟨?_, ?_, ?_⟩
  · intro prev items hnd
    unfold uniqueById
    rw [ubGo_append, ubGo_eq_self enc prev [] hnd (by simp)]
    congr 1
    apply ubGo_congr
    intro x
    simp
  · intro l
    exact (ubGo_nodup_and_fresh enc l []).1
  · intro prev items
    unfold uniqueById
    rw [ubGo_append]
    have hnd := (ubGo_nodup_and_fresh enc (prev ++ items) []).1
    rw [ubGo_eq_self enc _ [] hnd (by simp)]
    have h0 : ubGo enc
        ((ubGo enc [] (prev ++ items)).map (itemKey enc) ++ [])
        items = [] := by
      apply ubGo_drops_all
      intro it hit
      have := ubGo_covers enc (prev ++ items) [] it (by simp [hit])
      rcases this with h | h
      · simpa using h
      · simp at h
    rw [h0]
    simp

/-- C5 witness: merging page `[b, c]` into the deduplicated local
sequence `[a, b]` keeps `[a, b]` and appends only the new-key items of
the page. -/
theorem loadPage_merge_dedup_witness :
    uniqueById encW ([itA, itB] ++ [itB, itC])
      = [itA, itB] ++ ubGo encW ([itA, itB].map (itemKey encW)) [itB, itC] :=
  (loadPage_merge_dedup encW).1 [itA, itB] [itB, itC] (by decide)

/-- An event whose own explicit hint determines the slot resolves to
that slot no matter what the collection currently holds. -/
theorem hintSlot_resolve (e : VEvent) (s : Nat) (h : hintSlot e = some s)
    (col : List (Option Entry)) : resolveSlot col e = s := by
  unfold hintSlot at h
  cases hidx : e.index with
  | none => rw [hidx] at h; simp at h
  | some n =>
    rw [hidx] at h
    simp only at h
    by_cases h0 : (0 : Int) ≤ if 1 ≤ n then n - 1 else n
    · rw [if_pos h0] at h
      unfold resolveSlot
      rw [hidx]
      simp only [if_pos h0]
      exact Option.some.inj h
    · rw [if_neg h0] at h
      exact absurd h (by simp)

/-- Reading the occupied slot of a padded singleton collection. -/
theorem getD_pad (s : Nat) (x : Option Entry) :
    (List.replicate s (none : Option Entry) ++ [x]).getD s none = x := by
  induction s with
  | zero => rfl
  | succ n ih => simp [List.replicate_succ, ih]

/-- Setting the occupied slot of a padded singleton collection. -/
theorem set_pad (s : Nat) (en x : Option Entry) :
    (List.replicate s (none : Option Entry) ++ [en]).set s x
      = List.replicate s none ++ [x] := by
  induction s with
  | zero => rfl
  | succ n ih => simp [List.replicate_succ, ih]

/-- `setPad` at the occupied slot of a padded singleton collection
replaces the entry (the in-bounds branch of a JS array assignment). -/
theorem setPad_pad (s : Nat) (en x : Option Entry) :
    setPad (List.replicate s (none : Option Entry) ++ [en]) s x
      = List.replicate s none ++ [x] := by
  unfold setPad
  rw [if_pos (by simp)]
  exact set_pad s en x

/-- `setPad` on the empty collection pads with holes up to the target
slot (the out-of-bounds branch of a JS array assignment). -/
theorem setPad_nil (s : Nat) (x : Option Entry) :
    setPad [] s x = List.replicate s none ++ [x] := by
  simp [setPad]

/-- Indexing the occupied slot of a padded singleton collection. -/
theorem get?_pad (s : Nat) (x : Option Entry) :
    (List.replicate s (none : Option Entry) ++ [x]).get? s = some x := by
  induction s with
  | zero => rfl
  | succ n ih => simp [List.replicate_succ, ih]

/-- A padded singleton collection holds exactly one entry. -/
theorem countP_pad (s : Nat) (en : Entry) :
    (List.replicate s (none : Option Entry) ++ [some en]).countP
      (fun o => o.isSome) = 1 := by
  rw [List.countP_append]
  have h1 : (List.replicate s (none : Option Entry)).countP
      (fun o => o.isSome) = 0 := by
    induction s with
    | zero => rfl
    | succ n ih => simp [List.replicate_succ, List.countP_cons, ih]
  simp [h1, List.countP_cons]

/-- Applying the merge step to the empty collection creates one entry at
the resolved slot, seeded with an empty variant map and overlaid with
the event's variant. -/
theorem applyVariant_nil (d : GenDefaults) (e : VEvent) :
    ∃ en', applyVariant d [] e
        = List.replicate (resolveSlot [] e) none ++ [some en'] ∧
      en'.variants = updateV (fun _ => none) e := by
  unfold applyVariant
  simp only [List.getD_nil]
  rw [setPad_nil]
  exact ⟨_, rfl, rfl⟩

/-- Applying the merge step to a collection whose resolved slot is
occupied keeps the collection shape and overlays the event onto the
stored entry's variant map. -/
theorem applyVariant_pad (d : GenDefaults) (s : Nat) (en : Entry) (e : VEvent)
    (h : hintSlot e = some s) :
    ∃ en', applyVariant d (List.replicate s none ++ [some en]) e
        = List.replicate s none ++ [some en'] ∧
      en'.variants = updateV en.variants e := by
  have hres : resolveSlot (List.replicate s none ++ [some en]) e = s :=
    hintSlot_resolve e s h _
  simp only [applyVariant, hres, getD_pad, setPad_pad]
  exact ⟨_, rfl, rfl⟩

/-- Folding hint-addressed events for slot `s` over an occupied slot
keeps the shape and folds `updateV` over the stored variant map. -/
theorem foldl_applyVariant_pad (d : GenDefaults) (s : Nat) :
    ∀ (evs : List VEvent) (en : Entry),
      (∀ e ∈ evs, hintSlot e = some s) →
      ∃ en', List.foldl (applyVariant d)
          (List.replicate s none ++ [some en]) evs
          = List.replicate s none ++ [some en'] ∧
        en'.variants = List.foldl updateV en.variants evs := by
  intro evs
  induction evs with
  | nil => intro en _; exact ⟨en, rfl, rfl⟩
  | cons e rest ih =>
    intro en hs
    obtain ⟨en₁, h₁, hv₁⟩ := applyVariant_pad d s en e (hs e (by simp))
    obtain ⟨en', h', hv'⟩ := ih en₁ (fun x hx => hs x (by simp [hx]))
    refine ⟨en', ?_, ?_⟩
    · rw [List.foldl_cons, h₁, h']
    · rw [List.foldl_cons, ← hv₁]
      exact hv'

/-- Pointwise value of a folded overlay: the last event carrying tag `t`
wins, with the initial map as fallback. -/
theorem foldl_updateV_pointwise :
    ∀ (evs : List VEvent) (f : String → Option Image) (t : String),
      List.foldl updateV f evs t
        = match lastImageAt evs t with
          | some i => some i
          | none => f t := by
  intro evs
  induction evs with
  | nil => intro f t; rfl
  | cons e rest ih =>
    intro f t
    rw [List.foldl_cons, ih (updateV f e) t]
    have hcons : lastImageAt (e :: rest) t
        = match lastImageAt rest t with
          | some i => some i
          | none =>
            match e.variant, e.image with
            | some v, some img => if v ≠ "" ∧ v = t then some img else none
            | _, _ => none := rfl
    rw [hcons]
    cases hL : lastImageAt rest t with
    | some i => rfl
    | none =>
      cases hv : e.variant with
      | none => cases hi : e.image <;> simp [updateV, hv, hi]
      | some v =>
        cases hi : e.image with
        | none => simp [updateV, hv, hi]
        | some img =>
          by_cases hvv : v = ""
          · simp [updateV, hv, hi, hvv]
          · by_cases hvt : v = t
            · subst hvt
              simp [updateV, hv, hi, hvv]
            · have htv : ¬ t = v := fun h => hvt h.symm
              simp [updateV, hv, hi, hvv, hvt, htv]

/-- Folding the overlay over the empty map yields exactly the
last-write-wins map of the event sequence. -/
theorem foldl_updateV_none (evs : List VEvent) (t : String) :
    List.foldl updateV (fun _ => none) evs t = lastImageAt evs t := by
  rw [foldl_updateV_pointwise]
  cases lastImageAt evs t <;> rfl

/-- C1: any non-empty sequence of `image_variant` events whose own
position hints all resolve to the same slot `s`, folded through the
merge step in the order given (hence: in any order of the same event
multiset), produces a collection with exactly one entry; that entry
sits at slot `s` and its variant map is, per tag, the image of the
last-arriving event carrying that tag (the union of all carried
variants, last write wins). -/
theorem variant_events_same_slot (d : GenDefaults) (s : Nat)
    (evs : List VEvent) (hne : evs ≠ [])
    (hs : ∀ e ∈ evs, hintSlot e = some s) :
    (evs.foldl (applyVariant d) []).countP (fun o => o.isSome) = 1 ∧
    ∃ en, (evs.foldl (applyVariant d) []).get? s = some (some en) ∧
      ∀ t, en.variants t = lastImageAt evs t := by
  obtain ⟨e₀, rest, rfl⟩ := List.exists_cons_of_ne_nil hne
  obtain ⟨en₀, h₀, hv₀⟩ := applyVariant_nil d e₀
  have hr : resolveSlot [] e₀ = s := hintSlot_resolve e₀ s (hs e₀ (by simp)) []
  rw [hr] at h₀
  obtain ⟨en', h', hv'⟩ :=
    foldl_applyVariant_pad d s rest en₀ (fun x hx => hs x (by simp [hx]))
  have hfin : List.foldl (applyVariant d) [] (e₀ :: rest)
      = List.replicate s none ++ [some en'] := by
    rw [List.foldl_cons, h₀, h']
  refine ⟨?_, en', ?_, ?_⟩
  · rw [hfin]
    exact countP_pad s en'
  · rw [hfin]
    exact get?_pad s (some en')
  · intro t
    rw [hv', hv₀]
    have h := foldl_updateV_none (e₀ :: rest) t
    rw [List.foldl_cons] at h
    exact h

/-- Concrete generation defaults for scenario statements. -/
def dW : GenDefaults := { selections := "defaults", theme := "themeW", type := "cup" }

/-- Concrete image payload `A`. -/
def imgA : Image :=
  { id := none, image_id := none, saved_path := some "p1", payload := "A" }

/-- Concrete image payload `B`. -/
def imgB : Image :=
  { id := none, image_id := none, saved_path := some "p2", payload := "B" }

/-- Event: slot hint 1 (0-based slot 0), variant `original`, image `A`. -/
def evO : VEvent :=
  { blankEv with index := some 1, variant := some "original", image := some imgA }

/-- Event: slot hint 1 (0-based slot 0), variant `medium`, image `B`. -/
def evM : VEvent :=
  { blankEv with index := some 1, variant := some "medium", image := some imgB }

/-- C1 witness: the two same-slot events `evO` and `evM` merge into a
single entry at slot 0 whose variant map is their last-write-wins
union. -/
theorem variant_events_same_slot_witness :
    ([evO, evM].foldl (applyVariant dW) []).countP (fun o => o.isSome) = 1 ∧
    ∃ en, ([evO, evM].foldl (applyVariant dW) []).get? 0 = some (some en) ∧
      ∀ t, en.variants t = lastImageAt [evO, evM] t :=
  variant_events_same_slot dW 0 [evO, evM] (by decide) (by decide)

/-- Prepend a carry-over onto the head part of a split (the glue step of
re-associating buffered splitting). -/
def withHead (p : List Char) : List (List Char) → List (List Char)
  | [] => [p]
  | x :: xs => (p ++ x) :: xs

/-- A split always has at least one part. -/
theorem splitNl_ne_nil (l : List Char) : splitNl l ≠ [] := by
  induction l with
  | nil => simp [splitNl]
  | cons c cs ih =>
    by_cases hc : c = '\n'
    · simp [splitNl, hc]
    · simp only [splitNl, if_neg hc]
      cases hsp : splitNl cs with
      | nil => simp
      | cons p ps => simp

/-- Irrelevance of the fallback for the last element of a non-empty
list. -/
theorem getLastD_irrel {α : Type} (x : α) (l : List α) (d₁ d₂ : α) :
    (x :: l).getLastD d₁ = (x :: l).getLastD d₂ := by
  induction l generalizing x with
  | nil => rfl
  | cons y l ih => simp only [List.getLastD_cons]

/-- A newline-free text splits into itself alone. -/
theorem splitNl_no_nl (l : List Char) (h : '\n' ∉ l) : splitNl l = [l] := by
  induction l with
  | nil => rfl
  | cons c cs ih =>
    simp only [List.mem_cons, not_or] at h
    have hc : ¬ c = '\n' := fun hcc => h.1 hcc.symm
    unfold splitNl
    rw [if_neg hc, ih h.2]

/-- The trailing part of a split never contains a newline. -/
theorem splitNl_last_no_nl (l : List Char) : '\n' ∉ (splitNl l).getLastD [] := by
  induction l with
  | nil => simp [splitNl]
  | cons c cs ih =>
    by_cases hc : c = '\n'
    · unfold splitNl
      rw [if_pos hc, List.getLastD_cons]
      exact ih
    · unfold splitNl
      rw [if_neg hc]
      cases hsp : splitNl cs with
      | nil => exact absurd hsp (splitNl_ne_nil cs)
      | cons p ps =>
        rw [hsp] at ih
        cases ps with
        | nil =>
          rw [List.getLastD_cons, List.getLastD_nil] at ih
          simp only [List.getLastD_cons, List.getLastD_nil, List.mem_cons,
            not_or]
          exact ⟨fun h => hc h.symm, ih⟩
        | cons q qs =>
          rw [List.getLastD_cons] at ih
          rw [List.getLastD_cons, getLastD_irrel q qs (c :: p) p]
          exact ih

/-- One-step unfolding of `splitNl` on a cons cell. -/
theorem splitNl_cons (c : Char) (cs : List Char) :
    splitNl (c :: cs)
      = if c = '\n' then [] :: splitNl cs
        else
          match splitNl cs with
          | l :: ls => (c :: l) :: ls
          | [] => [[c]] := rfl

/-- Re-association of buffered splitting: splitting a concatenation is
splitting both halves and gluing the boundary parts. -/
theorem splitNl_append (a b : List Char) :
    splitNl (a ++ b)
      = (splitNl a).dropLast
        ++ withHead ((splitNl a).getLastD []) (splitNl b) := by
  induction a with
  | nil =>
    cases hb : splitNl b with
    | nil => exact absurd hb (splitNl_ne_nil b)
    | cons q qs =>
      rw [List.nil_append, hb]
      simp [splitNl, withHead]
  | cons c cs ih =>
    rw [List.cons_append, splitNl_cons c (cs ++ b), splitNl_cons c cs]
    by_cases hc : c = '\n'
    · rw [if_pos hc, if_pos hc, ih]
      cases hsp : splitNl cs with
      | nil => exact absurd hsp (splitNl_ne_nil cs)
      | cons p ps => simp [List.getLastD_cons]
    · rw [if_neg hc, if_neg hc, ih]
      cases hsp : splitNl cs with
      | nil => exact absurd hsp (splitNl_ne_nil cs)
      | cons p ps =>
        cases hb : splitNl b with
        | nil => exact absurd hb (splitNl_ne_nil b)
        | cons q qs =>
          cases ps with
          | nil => simp [withHead, List.getLastD_cons, List.getLastD_nil]
          | cons r rs =>
            simp only [List.dropLast_cons₂, List.getLastD_cons,
              List.cons_append]

/-- `withHead` never returns the empty list. -/
theorem withHead_ne_nil (p : List Char) (l : List (List Char)) :
    withHead p l ≠ [] := by
  cases l <;> simp [withHead]

/-- The last part of an append with a non-empty right half is the last
part of the right half. -/
theorem getLastD_append_right (l₁ l₂ : List (List Char)) (h : l₂ ≠ []) :
    ∀ d : List Char, (l₁ ++ l₂).getLastD d = l₂.getLastD d := by
  induction l₁ with
  | nil => intro d; rfl
  | cons x l₁ ih =>
    intro d
    rw [List.cons_append, List.getLastD_cons, ih x]
    cases l₂ with
    | nil => exact absurd rfl h
    | cons y l₂ => exact getLastD_irrel y l₂ x d

/-- `parseLine` neither reads nor writes the carry-over buffer. -/
theorem parseLineR_setBuf (j : List Char → Option RawEvent) (st : RunState)
    (x line : List Char) :
    parseLineR j { st with buffer := x } line
      = { parseLineR j st line with buffer := x } := by
  unfold parseLineR
  by_cases ht : trimWs line = []
  · rw [if_pos ht, if_pos ht]
  · rw [if_neg ht, if_neg ht]
    cases j line with
    | none => rfl
    | some r => cases r <;> rfl

/-- Folded `parseLine` ignores the buffer field of the start state. -/
theorem foldl_parseLineR_setBuf (j : List Char → Option RawEvent)
    (lines : List (List Char)) :
    ∀ (st : RunState) (x : List Char),
      List.foldl (parseLineR j) { st with buffer := x } lines
        = { List.foldl (parseLineR j) st lines with buffer := x } := by
  induction lines with
  | nil => intro st x; rfl
  | cons line rest ih =>
    intro st x
    rw [List.foldl_cons, List.foldl_cons, parseLineR_setBuf, ih]

/-- Feeding two chunks in sequence is feeding their concatenation: the
read-loop body is invariant under re-chunking. -/
theorem feedChunk_append (j : List Char → Option RawEvent) (st : RunState)
    (a b : List Char) :
    feedChunk j (feedChunk j st a) b = feedChunk j st (a ++ b) := by
  unfold feedChunk
  have hx : splitNl ((splitNl (st.buffer ++ a)).getLastD [] ++ b)
      = withHead ((splitNl (st.buffer ++ a)).getLastD []) (splitNl b) := by
    rw [splitNl_append, splitNl_no_nl _ (splitNl_last_no_nl (st.buffer ++ a))]
    rfl
  have hr : splitNl (st.buffer ++ (a ++ b))
      = (splitNl (st.buffer ++ a)).dropLast
        ++ withHead ((splitNl (st.buffer ++ a)).getLastD []) (splitNl b) := by
    rw [← List.append_assoc, splitNl_append]
  simp only [hx, hr]
  rw [List.dropLast_append_of_ne_nil _ (withHead_ne_nil _ _),
    getLastD_append_right _ _ (withHead_ne_nil _ _),
    List.foldl_append, foldl_parseLineR_setBuf]

/-- The buffer a chunk feed leaves behind never contains a newline. -/
theorem feedChunk_buffer_no_nl (j : List Char → Option RawEvent)
    (st : RunState) (c : List Char) : '\n' ∉ (feedChunk j st c).buffer := by
  unfold feedChunk
  exact splitNl_last_no_nl (st.buffer ++ c)

/-- Consuming a chunk list is consuming the single chunk of their
concatenation, provided the starting buffer is newline-free. -/
theorem foldl_feedChunk_join (j : List Char → Option RawEvent) :
    ∀ (chunks : List (List Char)) (st : RunState), '\n' ∉ st.buffer →
      List.foldl (feedChunk j) st chunks = feedChunk j st chunks.flatten := by
  intro chunks
  induction chunks with
  | nil =>
    intro st h
    show st = feedChunk j st []
    unfold feedChunk
    rw [List.append_nil, splitNl_no_nl st.buffer h]
    rfl
  | cons c cs ih =>
    intro st h
    rw [List.foldl_cons, ih (feedChunk j st c) (feedChunk_buffer_no_nl j st c),
      feedChunk_append]
    rfl

/-- Normal-form of a one-chunk run up to the flush: the complete lines
are parsed and the trailing part is then parsed as a final line (a
blank trailing part makes `parseLine` a no-op, so the conditional flush
is an unconditional final `parseLine`). -/
theorem preTrace_single (j : List Char → Option RawEvent) (b : List Char) :
    preTrace j [b] Ending.normal
      = { parseLineR j (List.foldl (parseLineR j) st0 (splitNl b).dropLast)
            ((splitNl b).getLastD [])
          with buffer := (splitNl b).getLastD [] } := by
  unfold preTrace
  rw [List.foldl_cons, List.foldl_nil]
  have hfc : feedChunk j st0 b
      = { List.foldl (parseLineR j) st0 (splitNl b).dropLast
          with buffer := (splitNl b).getLastD [] } := by
    unfold feedChunk
    rfl
  rw [hfc]
  show (if trimWs ((splitNl b).getLastD []) = [] then _ else _) = _
  by_cases ht : trimWs ((splitNl b).getLastD []) = []
  · rw [if_pos ht]
    have hskip : parseLineR j
        (List.foldl (parseLineR j) st0 (splitNl b).dropLast)
        ((splitNl b).getLastD [])
        = List.foldl (parseLineR j) st0 (splitNl b).dropLast := by
      unfold parseLineR
      rw [if_pos ht]
    rw [hskip]
  · rw [if_neg ht]
    exact parseLineR_setBuf j _ _ _

/-- A one-chunk run whose text ends in a newline parses the same lines,
with an empty carry-over buffer left at the end. -/
theorem preTrace_single_nl (j : List Char → Option RawEvent) (b : List Char) :
    preTrace j [b ++ ['\n']] Ending.normal
      = { parseLineR j (List.foldl (parseLineR j) st0 (splitNl b).dropLast)
            ((splitNl b).getLastD [])
          with buffer := [] } := by
  unfold preTrace
  rw [List.foldl_cons, List.foldl_nil]
  have hsp : splitNl (b ++ ['\n'])
      = (splitNl b).dropLast ++ [(splitNl b).getLastD [], []] := by
    rw [splitNl_append]
    congr 1
    show withHead ((splitNl b).getLastD []) [[], []] = _
    simp [withHead]
  have hfc : feedChunk j st0 (b ++ ['\n'])
      = { List.foldl (parseLineR j) st0
            ((splitNl b).dropLast ++ [(splitNl b).getLastD []])
          with buffer := [] } := by
    unfold feedChunk
    rw [show st0.buffer ++ (b ++ ['\n']) = b ++ ['\n'] from rfl, hsp,
      List.dropLast_append_of_ne_nil _ (by simp),
      getLastD_append_right _ _ (by simp)]
    rfl
  rw [hfc]
  show (if trimWs ([] : List Char) = [] then _ else _) = _
  rw [if_pos (show trimWs ([] : List Char) = [] from rfl), List.foldl_append]
  rfl

/-- C3: decoding depends only on the concatenated stream text, not on
how it was chunked — any two chunkings of the same text (in particular:
a line split across two reads versus delivered whole) produce the same
callbacks, the same `doneSeen`, and the same settled outcome, for every
ending; moreover a trailing partial line at a normal end of stream is
parsed exactly as if it had been newline-terminated (held until the
stream ends, then parsed as a final line if non-blank). -/
theorem decoder_chunk_invariance (j : List Char → Option RawEvent)
    (c1 c2 : List (List Char)) (ending : Ending)
    (h : c1.flatten = c2.flatten) :
    readLoop j c1 ending = readLoop j c2 ending ∧
    ∀ b : List Char, (readLoop j [b] Ending.normal).1.trace
        = (readLoop j [b ++ ['\n']] Ending.normal).1.trace := by
  constructor
  · unfold readLoop preTrace
    rw [foldl_feedChunk_join j c1 st0 (by simp [st0]),
      foldl_feedChunk_join j c2 st0 (by simp [st0]), h]
  · intro b
    unfold readLoop
    rw [preTrace_single j b, preTrace_single_nl j b]
    by_cases hd : (parseLineR j
        (List.foldl (parseLineR j) st0 (splitNl b).dropLast)
        ((splitNl b).getLastD [])).doneSeen
    · rw [if_pos hd, if_pos hd]
    · rw [if_neg hd, if_neg hd]

/-- A concrete parse function for scenario statements: the line `v` is
an `image_variant` record, the line `d` is a `done` record, anything
else is malformed. -/
def jW : List Char → Option RawEvent := fun l =>
  if l = ['v'] then some (RawEvent.image_variant evO)
  else if l = ['d'] then some (RawEvent.doneEv none)
  else none

/-- C3 witness: the text `v\nd` chunked as `v\n` + `d` decodes exactly
as when delivered in one chunk, with the trailing `d` parsed at stream
end. -/
theorem decoder_chunk_invariance_witness :
    readLoop jW [['v', '\n'], ['d']] Ending.normal
      = readLoop jW [['v', '\n', 'd']] Ending.normal :=
  (decoder_chunk_invariance jW [['v', '\n'], ['d']] [['v', '\n', 'd']]
    Ending.normal (by decide)).1

/-- `parseLine` sets `doneSeen` exactly when it appends a completion
callback, so the flag tracks positivity of the completion count. -/
theorem parseLineR_done_inv (j : List Char → Option RawEvent)
    (st : RunState) (line : List Char)
    (h : st.doneSeen = decide (0 < countDone st.trace)) :
    (parseLineR j st line).doneSeen
      = decide (0 < countDone (parseLineR j st line).trace) := by
  unfold parseLineR
  by_cases ht : trimWs line = []
  · rw [if_pos ht]
    exact h
  · rw [if_neg ht]
    cases j line with
    | none => simpa [countDone, List.countP_append] using h
    | some r =>
      cases r with
      | prompt => simpa [countDone, List.countP_append] using h
      | image_variant d => simpa [countDone, List.countP_append] using h
      | errorEv m => simpa [countDone, List.countP_append] using h
      | doneEv d => simp [countDone, List.countP_append]
      | other => exact h

/-- The `doneSeen`/completion-count invariant is preserved by parsing
any list of lines. -/
theorem foldl_parseLineR_done_inv (j : List Char → Option RawEvent)
    (lines : List (List Char)) :
    ∀ st : RunState, st.doneSeen = decide (0 < countDone st.trace) →
      (List.foldl (parseLineR j) st lines).doneSeen
        = decide (0 < countDone (List.foldl (parseLineR j) st lines).trace) := by
  induction lines with
  | nil => intro st h; exact h
  | cons line rest ih =>
    intro st h
    rw [List.foldl_cons]
    exact ih _ (parseLineR_done_inv j st line h)

/-- The `doneSeen`/completion-count invariant is preserved by a chunk
feed. -/
theorem feedChunk_done_inv (j : List Char → Option RawEvent)
    (st : RunState) (c : List Char)
    (h : st.doneSeen = decide (0 < countDone st.trace)) :
    (feedChunk j st c).doneSeen
      = decide (0 < countDone (feedChunk j st c).trace) := by
  unfold feedChunk
  exact foldl_parseLineR_done_inv j _ st h

/-- The `doneSeen` flag of the pre-completion state is set iff the
decoded trace contains a completion callback. -/
theorem preTrace_done_inv (j : List Char → Option RawEvent)
    (chunks : List (List Char)) (ending : Ending) :
    (preTrace j chunks ending).doneSeen
      = decide (0 < countDone (preTrace j chunks ending).trace) := by
  have hfold : ∀ (cs : List (List Char)) (st : RunState),
      st.doneSeen = decide (0 < countDone st.trace) →
      (List.foldl (feedChunk j) st cs).doneSeen
        = decide (0 < countDone (List.foldl (feedChunk j) st cs).trace) := by
    intro cs
    induction cs with
    | nil => intro st h; exact h
    | cons c cs ih =>
      intro st h
      rw [List.foldl_cons]
      exact ih _ (feedChunk_done_inv j st c h)
  have hbase : (List.foldl (feedChunk j) st0 chunks).doneSeen
      = decide (0 < countDone (List.foldl (feedChunk j) st0 chunks).trace) :=
    hfold chunks st0 (by simp [st0, countDone])
  unfold preTrace
  cases ending with
  | normal =>
    by_cases ht : trimWs (List.foldl (feedChunk j) st0 chunks).buffer = []
    · rw [if_pos ht]
      exact hbase
    · rw [if_neg ht]
      exact parseLineR_done_inv j _ _ hbase
  | abort => exact hbase
  | fail m => exact hbase

/-- Appending a completion callback increments the completion count. -/
theorem countDone_snoc_done (tr : List CB) (d : Option DoneData) :
    countDone (tr ++ [CB.doneC d]) = countDone tr + 1 := by
  simp [countDone, List.countP_append, List.countP_cons]

/-- Appending a completion callback leaves the error count unchanged. -/
theorem countErr_snoc_done (tr : List CB) (d : Option DoneData) :
    countErr (tr ++ [CB.doneC d]) = countErr tr := by
  simp [countErr, List.countP_append, List.countP_cons]

/-- C2: for a run whose decoded lines contain at most one `done` record,
both a normal end of stream and a cancellation (`AbortError`) settle the
run with exactly one completion callback — the explicit `done` one if it
was decoded, a synthesized one otherwise — and a resolved completion
promise; and the completion path adds no error callback, so cancellation
never surfaces as an `onError`. -/
theorem stream_completion_once (j : List Char → Option RawEvent)
    (chunks : List (List Char)) (ending : Ending)
    (hend : ending = Ending.normal ∨ ending = Ending.abort)
    (hd : countDone (preTrace j chunks ending).trace ≤ 1) :
    countDone (readLoop j chunks ending).1.trace = 1 ∧
    (readLoop j chunks ending).2 = Outcome.resolved ∧
    countErr (readLoop j chunks ending).1.trace
      = countErr (preTrace j chunks ending).trace := by
  have hinv := preTrace_done_inv j chunks ending
  have main : ∀ e, e = Ending.normal ∨ e = Ending.abort →
      countDone (preTrace j chunks e).trace ≤ 1 →
      (preTrace j chunks e).doneSeen
        = decide (0 < countDone (preTrace j chunks e).trace) →
      countDone (readLoop j chunks e).1.trace = 1 ∧
      (readLoop j chunks e).2 = Outcome.resolved ∧
      countErr (readLoop j chunks e).1.trace
        = countErr (preTrace j chunks e).trace := by
    intro e he hle hiv
    have hbranch : readLoop j chunks e
        = (if (preTrace j chunks e).doneSeen then preTrace j chunks e
           else { preTrace j chunks e with
              trace := (preTrace j chunks e).trace ++ [CB.doneC none] },
           Outcome.resolved) := by
      rcases he with h | h <;> subst h <;> rfl
    rw [hbranch]
    by_cases hds : (preTrace j chunks e).doneSeen
    · rw [if_pos hds]
      rw [hds] at hiv
      have hpos : 0 < countDone (preTrace j chunks e).trace :=
        of_decide_eq_true hiv.symm
      refine ⟨?_, rfl, rfl⟩
      show countDone (preTrace j chunks e).trace = 1
      omega
    · rw [if_neg hds]
      have hz : ¬ 0 < countDone (preTrace j chunks e).trace := by
        intro hpos
        exact hds (hiv.trans (decide_eq_true hpos))
      refine ⟨?_, rfl, ?_⟩
      · show countDone ((preTrace j chunks e).trace ++ [CB.doneC none]) = 1
        rw [countDone_snoc_done]
        omega
      · exact countErr_snoc_done _ _
  exact main ending hend hd hinv

/-- C2 witness: a run delivering one variant line and one done line,
then cancelled, settles with exactly one completion callback, a
resolved promise, and no error callback added by the cancellation. -/
theorem stream_completion_once_witness :
    countDone (readLoop jW [['v', '\n', 'd', '\n']] Ending.abort).1.trace = 1 ∧
    (readLoop jW [['v', '\n', 'd', '\n']] Ending.abort).2 = Outcome.resolved ∧
    countErr (readLoop jW [['v', '\n', 'd', '\n']] Ending.abort).1.trace
      = countErr (preTrace jW [['v', '\n', 'd', '\n']] Ending.abort).trace :=
  stream_completion_once jW [['v', '\n', 'd', '\n']] Ending.abort
    (Or.inr rfl) (by decide)

/-- Splitting off one newline-terminated line from the front. -/
theorem splitNl_cons_nl (a r : List Char) (h : '\n' ∉ a) :
    splitNl (a ++ '\n' :: r) = a :: splitNl r := by
  rw [splitNl_append, splitNl_no_nl a h]
  show [] ++ withHead a (splitNl ('\n' :: r)) = a :: splitNl r
  rw [splitNl_cons, if_pos rfl]
  show withHead a ([] :: splitNl r) = a :: splitNl r
  simp [withHead]

/-- The run state reached by the C4 scenario: variant line, malformed
line, done line, all consumed, `done` seen, empty buffer. -/
def scenarioSt (ev : VEvent) (dd : Option DoneData) : RunState :=
  { buffer := [], doneSeen := true,
    trace := [CB.variantC ev, CB.errorC (some "Malformed stream data"),
      CB.doneC dd] }

/-- C4: a non-blank line that fails to parse produces exactly one
synthetic error callback with the fixed message `Malformed stream data`
and leaves the rest of the run state untouched (decoding continues); in
particular a well-formed `image_variant` line followed by a malformed
line followed by a `done` line yields exactly one error callback,
exactly one completion callback, a resolved promise, and a collection
that still contains the variant's entry at its resolved slot. -/
theorem parse_failure_policy (j : List Char → Option RawEvent) :
    (∀ (st : RunState) (line : List Char), trimWs line ≠ [] → j line = none →
      parseLineR j st line
        = { st with
            trace := st.trace ++ [CB.errorC (some "Malformed stream data")] }) ∧
    (∀ (d : GenDefaults) (lv lm ld : List Char) (ev : VEvent)
      (dd : Option DoneData) (v : String) (img : Image),
      j lv = some (RawEvent.image_variant ev) → j lm = none →
      j ld = some (RawEvent.doneEv dd) →
      '\n' ∉ lv → '\n' ∉ lm → '\n' ∉ ld →
      trimWs lv ≠ [] → trimWs lm ≠ [] → trimWs ld ≠ [] →
      ev.variant = some v → v ≠ "" → ev.image = some img →
      countErr (readLoop j [lv ++ '\n' :: (lm ++ '\n' :: (ld ++ ['\n']))]
        Ending.normal).1.trace = 1 ∧
      countDone (readLoop j [lv ++ '\n' :: (lm ++ '\n' :: (ld ++ ['\n']))]
        Ending.normal).1.trace = 1 ∧
      (readLoop j [lv ++ '\n' :: (lm ++ '\n' :: (ld ++ ['\n']))]
        Ending.normal).2 = Outcome.resolved ∧
      ∃ en, (imageSetsOf d (readLoop j
          [lv ++ '\n' :: (lm ++ '\n' :: (ld ++ ['\n']))]
          Ending.normal).1.trace).get? (resolveSlot [] ev)
          = some (some en) ∧
        en.variants v = some img) := by
  constructor
  · intro st line ht hj
    unfold parseLineR
    rw [if_neg ht, hj]
  · intro d lv lm ld ev dd v img hjv hjm hjd hnv hnm hnd htv htm htd hev hvne himg
    have hsp : splitNl (lv ++ '\n' :: (lm ++ '\n' :: (ld ++ ['\n'])))
        = [lv, lm, ld, []] := by
      rw [splitNl_cons_nl _ _ hnv, splitNl_cons_nl _ _ hnm,
        splitNl_cons_nl _ _ hnd]
      rfl
    have h1 : parseLineR j st0 lv = { st0 with trace := [CB.variantC ev] } := by
      unfold parseLineR
      rw [if_neg htv, hjv]
      rfl
    have h2 : parseLineR j { st0 with trace := [CB.variantC ev] } lm
        = { st0 with trace := [CB.variantC ev,
            CB.errorC (some "Malformed stream data")] } := by
      unfold parseLineR
      rw [if_neg htm, hjm]
      rfl
    have h3 : parseLineR j { st0 with trace := [CB.variantC ev,
          CB.errorC (some "Malformed stream data")] } ld
        = scenarioSt ev dd := by
      unfold parseLineR
      rw [if_neg htd, hjd]
      rfl
    have hfeed : List.foldl (feedChunk j) st0
        [lv ++ '\n' :: (lm ++ '\n' :: (ld ++ ['\n']))] = scenarioSt ev dd := by
      rw [List.foldl_cons, List.foldl_nil]
      unfold feedChunk
      rw [show st0.buffer = ([] : List Char) from rfl, List.nil_append, hsp]
      show { List.foldl (parseLineR j) st0 [lv, lm, ld]
        with buffer := ([] : List Char) } = scenarioSt ev dd
      rw [List.foldl_cons, List.foldl_cons, List.foldl_cons, List.foldl_nil,
        h1, h2, h3]
      rfl
    have hpre : preTrace j [lv ++ '\n' :: (lm ++ '\n' :: (ld ++ ['\n']))]
        Ending.normal = scenarioSt ev dd := by
      unfold preTrace
      rw [hfeed]
      split
      · rfl
      · next hne => exact absurd rfl hne
    have hbranch : readLoop j [lv ++ '\n' :: (lm ++ '\n' :: (ld ++ ['\n']))]
        Ending.normal
        = (if (preTrace j [lv ++ '\n' :: (lm ++ '\n' :: (ld ++ ['\n']))]
              Ending.normal).doneSeen
           then preTrace j [lv ++ '\n' :: (lm ++ '\n' :: (ld ++ ['\n']))]
              Ending.normal
           else { preTrace j [lv ++ '\n' :: (lm ++ '\n' :: (ld ++ ['\n']))]
              Ending.normal with
              trace := (preTrace j
                [lv ++ '\n' :: (lm ++ '\n' :: (ld ++ ['\n']))]
                Ending.normal).trace ++ [CB.doneC none] },
           Outcome.resolved) := rfl
    have hrun : readLoop j [lv ++ '\n' :: (lm ++ '\n' :: (ld ++ ['\n']))]
        Ending.normal = (scenarioSt ev dd, Outcome.resolved) := by
      rw [hbranch, hpre]
      split
      · rfl
      · next hfalse => exact absurd rfl hfalse
    rw [hrun]
    refine ⟨?_, ?_, rfl, ?_⟩
    · simp [scenarioSt, countErr, List.countP_cons]
    · simp [scenarioSt, countDone, List.countP_cons]
    · have hsets : imageSetsOf d (scenarioSt ev dd).trace
          = applyVariant d [] ev := rfl
      obtain ⟨en, hcol, hvars⟩ := applyVariant_nil d ev
      refine ⟨en, ?_, ?_⟩
      · show (imageSetsOf d (scenarioSt ev dd).trace).get?
            (resolveSlot [] ev) = some (some en)
        rw [hsets, hcol]
        exact get?_pad _ _
      · rw [hvars]
        unfold updateV
        rw [hev, himg]
        show (if v = "" then (fun _ => none)
          else fun t => if t = v then some img else (fun _ => none) t) v
          = some img
        rw [if_neg hvne]
        simp

/-- C4 witness: under `jW` the lines `v` (variant), `x` (malformed) and
`d` (done) produce one error callback, one completion callback, a
resolved promise, and a collection holding the variant entry. -/
theorem parse_failure_policy_witness :
    countErr (readLoop jW
      [['v'] ++ '\n' :: (['x'] ++ '\n' :: (['d'] ++ ['\n']))]
      Ending.normal).1.trace = 1 ∧
    countDone (readLoop jW
      [['v'] ++ '\n' :: (['x'] ++ '\n' :: (['d'] ++ ['\n']))]
      Ending.normal).1.trace = 1 ∧
    (readLoop jW [['v'] ++ '\n' :: (['x'] ++ '\n' :: (['d'] ++ ['\n']))]
      Ending.normal).2 = Outcome.resolved ∧
    ∃ en, (imageSetsOf dW (readLoop jW
        [['v'] ++ '\n' :: (['x'] ++ '\n' :: (['d'] ++ ['\n']))]
        Ending.normal).1.trace).get? (resolveSlot [] evO)
        = some (some en) ∧
      en.variants "original" = some imgA :=
  (parse_failure_policy jW).2 dW ['v'] ['x'] ['d'] evO none "original" imgA
    (by decide) (by decide) (by decide) (by decide) (by decide) (by decide)
    (by decide) (by decide) (by decide) (by decide) (by decide) (by decide)
